import Mathlib

/-! # ethereum-hdwallet: a shallow embedding of `hdwallet/hdwallet.go`

The package is a thin layer over four external packages (`hdkeychain`,
`go-bip39`, `go-ethereum/accounts`, `go-ethereum/crypto`).  The functions of
`hdwallet.go` are embedded as Lean functions; the external operations they call
are the fields of `Deps`, over which every wallet-level theorem is universally
quantified.  Go's `(value, error)` results are `Except`: `.error e` stands for
`(nil, e)` and `.ok v` for `(v, nil)`.
-/

namespace HDWallet

/-- A `[]byte`, each element below 256. -/
abbrev Bytes := List Nat

deriving instance DecidableEq for Except

/-- The type `accounts.DerivationPath`, a `[]uint32`: one component per level,
the hardened flag being the high bit `0x80000000` of the component. -/
abbrev DerivationPath := List Nat

/-- The external operations called by `hdwallet.go`, as pure functions.
`Key` is `*hd.ExtendedKey`, `Err` is `error`, `BtcKey` is `*btcec.PrivateKey`,
`Priv` is `*ecdsa.PrivateKey`, `Pub` is `ecdsa.PublicKey` and `Addr` is
`common.Address`. -/
structure Deps (Key Err BtcKey Priv Pub Addr : Type) where
  /-- The function `bip39.NewSeedWithErrorChecking`. -/
  NewSeedWithErrorChecking : String → String → Except Err Bytes
  /-- The function `hd.NewMaster(seed, &chaincfg.MainNetParams)`. -/
  NewMaster : Bytes → Except Err Key
  /-- The method `(*ExtendedKey).IsAffectedByIssue172`. -/
  IsAffectedByIssue172 : Key → Bool
  /-- The method `(*ExtendedKey).Derive`. -/
  Derive : Key → Nat → Except Err Key
  /-- The method `(*ExtendedKey).DeriveNonStandard`. -/
  DeriveNonStandard : Key → Nat → Except Err Key
  /-- The method `(*ExtendedKey).ECPrivKey`. -/
  ECPrivKey : Key → Except Err BtcKey
  /-- The method `(*btcec.PrivateKey).ToECDSA`. -/
  ToECDSA : BtcKey → Priv
  /-- The field `PublicKey` of an `ecdsa.PrivateKey`. -/
  PublicKey : Priv → Pub
  /-- The function `crypto.PubkeyToAddress`. -/
  PubkeyToAddress : Pub → Addr

/-- The struct `Wallet` (hdwallet.go, lines 15-17). -/
structure Wallet (Key : Type) where
  masterKey : Key

/-- The struct `Derived` (hdwallet.go, lines 19-24). -/
structure Derived (Key Addr Priv Pub : Type) where
  ExtendedKey : Key
  Address : Addr
  PrivateKey : Priv
  PublicKey : Pub

section Embedding

variable {Key Err BtcKey Priv Pub Addr : Type}

/-- The function `New` (hdwallet.go, lines 30-44). -/
def New (L : Deps Key Err BtcKey Priv Pub Addr) (mnemonic password : String) :
    Except Err (Wallet Key) :=
  match L.NewSeedWithErrorChecking mnemonic password with
  | .error err => .error err
  | .ok seed =>
    match L.NewMaster seed with
    | .error err => .error err
    | .ok masterKey => .ok { masterKey := masterKey }

/-- The function `NewFromSeed` (hdwallet.go, lines 47-54). -/
def NewFromSeed (L : Deps Key Err BtcKey Priv Pub Addr) (seed : Bytes) :
    Except Err (Wallet Key) :=
  match L.NewMaster seed with
  | .error err => .error err
  | .ok masterKey => .ok { masterKey := masterKey }

/-- The function `getPrivateKey` (hdwallet.go, lines 104-111). -/
def getPrivateKey (L : Deps Key Err BtcKey Priv Pub Addr) (key : Key) : Except Err Priv :=
  match L.ECPrivKey key with
  | .error err => .error err
  | .ok privKey => .ok (L.ToECDSA privKey)

/-- The `if`/`else` of the loop body of `Wallet.Derive` (lines 73-77): the one
library call made for the node `key` and the component `n`. -/
def deriveChild (L : Deps Key Err BtcKey Priv Pub Addr) (key : Key) (n : Nat) :
    Except Err Key :=
  if L.IsAffectedByIssue172 key then L.Derive key n else L.DeriveNonStandard key n

/-- The loop of `Wallet.Derive` (lines 72-82), started with the local variable
`key` at the given node: the first error leaves the function. -/
def walk (L : Deps Key Err BtcKey Priv Pub Addr) : Key → DerivationPath → Except Err Key
  | key, [] => .ok key
  | key, n :: rest =>
    match deriveChild L key n with
    | .error err => .error err
    | .ok child => walk L child rest

/-- The nodes and components on which the loop of `Wallet.Derive` calls the
library, in order: one entry per iteration that is entered. -/
def walkCalls (L : Deps Key Err BtcKey Priv Pub Addr) : Key → DerivationPath → List (Key × Nat)
  | _, [] => []
  | key, n :: rest =>
    (key, n) ::
      match deriveChild L key n with
      | .error _ => []
      | .ok child => walkCalls L child rest

/-- Lines 84-96 of `Wallet.Derive`: what is done with the key left by the loop. -/
def materialize (L : Deps Key Err BtcKey Priv Pub Addr) (key : Key) :
    Except Err (Derived Key Addr Priv Pub) :=
  match getPrivateKey L key with
  | .error err => .error err
  | .ok privateKey =>
    let publicKey := L.PublicKey privateKey
    .ok { ExtendedKey := key
          Address := L.PubkeyToAddress publicKey
          PrivateKey := privateKey
          PublicKey := publicKey }

/-- The method `(*Wallet).Derive` (hdwallet.go, lines 68-97). -/
def Wallet.Derive (L : Deps Key Err BtcKey Priv Pub Addr) (w : Wallet Key)
    (path : DerivationPath) : Except Err (Derived Key Addr Priv Pub) :=
  match walk L w.masterKey path with
  | .error err => .error err
  | .ok key => materialize L key

/-- The walk that calls the standard `key.Derive` at every step, whatever the
node: the reference the result of `Wallet.Derive` is compared with. -/
def walkStandard (L : Deps Key Err BtcKey Priv Pub Addr) : Key → DerivationPath → Except Err Key
  | key, [] => .ok key
  | key, n :: rest =>
    match L.Derive key n with
    | .error err => .error err
    | .ok child => walkStandard L child rest

/-- The method `Wallet.Derive` with its loop replaced by `walkStandard`. -/
def Wallet.DeriveStandard (L : Deps Key Err BtcKey Priv Pub Addr) (w : Wallet Key)
    (path : DerivationPath) : Except Err (Derived Key Addr Priv Pub) :=
  match walkStandard L w.masterKey path with
  | .error err => .error err
  | .ok key => materialize L key

end Embedding

/-! ## The key-derivation engine, from the specification

`hdkeychain` is not part of the repository's sources.  The engine below follows
sections 3, 4.1, 4.2 and 4.4 of the specification; the hash, the curve and the
address convention stay parameters. -/

/-- Modelled from the spec: the error taxonomy of section 7. -/
inductive SpecError where
  | InvalidMnemonicError
  | InvalidPathError
  | IndexOverflowError
  | InvalidIndexError
  | InvalidKeyError
  | MalformedParentError
  | MissingPrivateKeyError
  deriving DecidableEq, Repr

/-- Modelled from the spec: the external collaborators and primitives of
sections 4 and 6, which the specification fixes only by interface: the curve
order `n`, HMAC-SHA512 (key first, then message), the public point of a private
scalar, its compressed serialization, the hash the fingerprint is cut from, the
address convention and the mnemonic-to-seed function. -/
structure Prims (Point : Type) where
  n : Nat
  hmacSHA512 : Bytes → Bytes → Bytes
  publicPoint : Nat → Point
  serializePoint : Point → Bytes
  fingerprintHash : Bytes → Bytes
  addressOf : Point → Bytes
  fromMnemonic : String → String → Except SpecError Bytes

/-- Modelled from the spec: the entity `ExtendedKey` of section 3.  The private
scalar is kept as the integer it encodes; `none` is a public-only node. -/
structure ExtendedKey where
  depth : Nat
  childIndex : Nat
  chainCode : Bytes
  parentFingerprint : Bytes
  privateScalar : Option Nat
  deriving DecidableEq, Repr

/-- The big-endian bytes of a number without leading zero bytes, by at most
`fuel` divisions. -/
def naturalBytesAux : Nat → Nat → Bytes
  | 0, _ => []
  | fuel + 1, x => if x = 0 then [] else naturalBytesAux fuel (x / 256) ++ [x % 256]

/-- Modelled from the spec: the natural big-endian encoding of a private scalar,
the one that is "shorter than 32 bytes" when the scalar has leading zero
bytes (section 4.2). -/
def naturalBytes (x : Nat) : Bytes := naturalBytesAux x x

/-- Zero bytes in front, up to the given length. -/
def leftPad (len : Nat) (b : Bytes) : Bytes := List.replicate (len - b.length) 0 ++ b

/-- Modelled from the spec: the zero-padded 32-byte big-endian serialization of
a private scalar. -/
def ser256 (x : Nat) : Bytes := leftPad 32 (naturalBytes x)

/-- Modelled from the spec: `serialize_u32_be`. -/
def ser32 (i : Nat) : Bytes := [i / 2 ^ 24 % 256, i / 2 ^ 16 % 256, i / 2 ^ 8 % 256, i % 256]

/-- The integer a big-endian byte sequence encodes. -/
def parse256 (b : Bytes) : Nat := b.foldl (fun acc x => acc * 256 + x) 0

/-- Modelled from the spec: the two derivation modes of section 4.2. -/
inductive Mode where
  | Standard
  | LegacyNonStandard
  deriving DecidableEq, Repr

/-- Modelled from the spec: an index with its highest bit set requests hardened
derivation (section 4.2). -/
def isHardened (index : Nat) : Bool := decide (2 ^ 31 ≤ index)

/-- Modelled from the spec: step 1 of section 4.2, the 37-byte HMAC message.
In the legacy mode the private scalar is written without its leading zero bytes
right after the `0x00` byte, so it is shifted to the left and the rest of its 32
bytes stays zero. -/
def hmacMessage {Point : Type} (P : Prims Point) (mode : Mode) (scalar index : Nat) : Bytes :=
  if isHardened index then
    match mode with
    | .Standard => 0 :: (ser256 scalar ++ ser32 index)
    | .LegacyNonStandard =>
      0 :: (naturalBytes scalar ++
        (List.replicate (32 - (naturalBytes scalar).length) 0 ++ ser32 index))
  else
    P.serializePoint (P.publicPoint scalar) ++ ser32 index

/-- Modelled from the spec: `derive_child` of section 4.2, steps 1 to 7. -/
def derive_child {Point : Type} (P : Prims Point) (parent : ExtendedKey) (index : Nat)
    (mode : Mode) : Except SpecError ExtendedKey :=
  match parent.privateScalar with
  | none => .error .MalformedParentError
  | some k =>
    let i := P.hmacSHA512 parent.chainCode (hmacMessage P mode k index)
    let il := parse256 (i.take 32)
    let ir := i.drop 32
    let child := (il + k) % P.n
    if P.n ≤ il ∨ child = 0 then .error .InvalidIndexError
    else .ok
      { depth := (parent.depth + 1) % 256
        childIndex := index
        chainCode := ir
        parentFingerprint :=
          (P.fingerprintHash (P.serializePoint (P.publicPoint k))).take 4
        privateScalar := some child }

/-- Modelled from the spec: `derive_master` of section 4.1; the HMAC key is the
ASCII string "Bitcoin seed". -/
def derive_master {Point : Type} (P : Prims Point) (seed : Bytes) :
    Except SpecError ExtendedKey :=
  let i := P.hmacSHA512 [66, 105, 116, 99, 111, 105, 110, 32, 115, 101, 101, 100] seed
  let il := parse256 (i.take 32)
  if il = 0 ∨ P.n ≤ il then .error .InvalidKeyError
  else .ok
    { depth := 0
      childIndex := 0
      chainCode := i.drop 32
      parentFingerprint := [0, 0, 0, 0]
      privateScalar := some il }

/-- Modelled from the spec: a key is affected when the serialization of its
private scalar is shorter than 32 bytes (section 4.2, last sentences). -/
def isAffected (key : ExtendedKey) : Bool :=
  match key.privateScalar with
  | none => false
  | some k => decide ((naturalBytes k).length < 32)

/-- Modelled from the spec: the leaf's private scalar, or
`MissingPrivateKeyError` (section 4.4). -/
def privateScalarOf (key : ExtendedKey) : Except SpecError Nat :=
  match key.privateScalar with
  | none => .error .MissingPrivateKeyError
  | some k => .ok k

/-- Modelled from the spec: the operations of `Deps` as the specification's
engine provides them: `Derive` is the standard mode and `DeriveNonStandard` the
legacy mode of `derive_child`; the private key is the scalar, the public key
its curve point. -/
def specDeps {Point : Type} (P : Prims Point) : Deps ExtendedKey SpecError Nat Nat Point Bytes where
  NewSeedWithErrorChecking := P.fromMnemonic
  NewMaster := derive_master P
  IsAffectedByIssue172 := isAffected
  Derive := fun key n => derive_child P key n .Standard
  DeriveNonStandard := fun key n => derive_child P key n .LegacyNonStandard
  ECPrivKey := privateScalarOf
  ToECDSA := fun k => k
  PublicKey := P.publicPoint
  PubkeyToAddress := P.addressOf

/-! ## Derivation paths

`fmt.Sprintf` is embedded for the formats made of plain text, `%d` and `%%`.
The package `accounts` of go-ethereum is not part of the repository's sources;
`ParseDerivationPath` below follows it step by step, with the number syntax of
`big.Int.SetString` in base 0. -/

/-- The character of a decimal digit. -/
def digitChar (d : Nat) : Char := Char.ofNat (48 + d)

/-- The decimal digits of a number, most significant first, by at most `fuel`
divisions. -/
def decimalAux : Nat → Nat → List Char
  | 0, _ => []
  | fuel + 1, n =>
    if n < 10 then [digitChar n] else decimalAux fuel (n / 10) ++ [digitChar (n % 10)]

/-- The verb `%d` of Go's `fmt` on a non-negative integer. -/
def formatNat (n : Nat) : List Char := decimalAux (n + 1) n

/-- The verb `%d` of Go's `fmt` on an `int`. -/
def formatInt : Int → List Char
  | .ofNat n => formatNat n
  | .negSucc n => '-' :: formatNat (n + 1)

/-- The function `fmt.Sprintf` with one `int` argument, for formats made of
plain text, `%d` and `%%`; `arg` is `none` once the argument is used. -/
def sprintfAux : List Char → Option Int → List Char
  | [], none => []
  | [], some i => "%!(EXTRA int=".toList ++ (formatInt i ++ [')'])
  | [c], arg => c :: sprintfAux [] arg
  | c :: d :: rest, arg =>
    if c = '%' then
      if d = 'd' then
        match arg with
        | some i => formatInt i ++ sprintfAux rest none
        | none => "%!d(MISSING)".toList ++ sprintfAux rest none
      else if d = '%' then '%' :: sprintfAux rest arg
      else c :: sprintfAux (d :: rest) arg
    else c :: sprintfAux (d :: rest) arg

/-- The call `fmt.Sprintf(format, index)`. -/
def Sprintf (format : List Char) (index : Int) : List Char := sprintfAux format (some index)

/-- The initial value of the variable `DefaultDerivationPath` (line 27). -/
def DefaultDerivationPath : List Char := "m/44'/60'/0'/0/%d".toList

/-- The function `CreateDerivationPath` (hdwallet.go, lines 57-65); the
variable `DefaultDerivationPath` it reads and the parser it calls are
arguments. -/
def CreateDerivationPath {Err : Type} (ParseDerivationPath : List Char → Except Err DerivationPath)
    (defaultDerivationPath : List Char) (index : Int) : Except Err DerivationPath :=
  let path := Sprintf defaultDerivationPath index
  match ParseDerivationPath path with
  | .error err => .error err
  | .ok parsed => .ok parsed

/-- The components of a path string, cut at every `/`. -/
def splitSlash : List Char → List (List Char)
  | [] => [[]]
  | c :: cs =>
    if c = '/' then [] :: splitSlash cs
    else
      match splitSlash cs with
      | [] => [[c]]
      | x :: xs => (c :: x) :: xs

/-- The errors of `accounts.ParseDerivationPath`, one constructor for each of
its messages: "empty derivation path", "ambiguous path: ...", "invalid
component: c", "component v out of allowed range [0, max]" and "component v out
of allowed hardened range [0, max]". -/
inductive PathError where
  | emptyPath
  | ambiguousPath
  | invalidComponent (component : List Char)
  | outOfRange (value : Int) (max : Nat)
  | outOfHardenedRange (value : Int) (max : Nat)
  deriving DecidableEq, Repr

/-- The white space `strings.TrimSpace` removes (`unicode.IsSpace`). -/
def isSpace (c : Char) : Bool :=
  decide (c.toNat ∈ [9, 10, 11, 12, 13, 32, 0x85, 0xA0, 0x1680, 0x2028, 0x2029, 0x202F,
    0x205F, 0x3000]) || decide (0x2000 ≤ c.toNat ∧ c.toNat ≤ 0x200A)

/-- The function `strings.TrimSpace`. -/
def trimSpace (s : List Char) : List Char :=
  ((s.dropWhile isSpace).reverse.dropWhile isSpace).reverse

/-- What the number scanner of `math/big` saw last: a separator `_`, a digit,
or neither. -/
inductive Prev where
  | sep
  | digit
  | other
  deriving DecidableEq, Repr

/-- The variables of the digit loop of the scanner of `math/big`: the value so
far, the number of digits, the previous character and whether a separator was
misplaced. -/
structure ScanState where
  acc : Nat
  count : Nat
  prev : Prev
  invalSep : Bool
  deriving DecidableEq, Repr

/-- The value of a character as a digit; 63 for a character that is no digit
in any base. -/
def digitValue (ch : Char) : Nat :=
  if 48 ≤ ch.toNat ∧ ch.toNat ≤ 57 then ch.toNat - 48
  else if 97 ≤ ch.toNat ∧ ch.toNat ≤ 122 then ch.toNat - 97 + 10
  else if 65 ≤ ch.toNat ∧ ch.toNat ≤ 90 then ch.toNat - 65 + 10
  else 63

/-- The digit loop of the scanner of `math/big` in base `b`, the base argument
being 0 (separators allowed): digits are collected, a `_` must follow a digit,
the first character that is no digit of the base ends the loop and stays
unread.  The result is the state and the unread characters. -/
def scanLoop (b : Nat) : List Char → ScanState → ScanState × List Char
  | [], st => (st, [])
  | ch :: rest, st =>
    if ch = '_' then
      scanLoop b rest
        { st with invalSep := st.invalSep || decide (st.prev ≠ .digit), prev := .sep }
    else if b ≤ digitValue ch then (st, ch :: rest)
    else
      scanLoop b rest
        { acc := st.acc * b + digitValue ch
          count := st.count + 1
          prev := .digit
          invalSep := st.invalSep }

/-- The end of the scanner of `math/big`: a misplaced or final separator is an
error, and so is a number without digits, except that a lone octal `0` is the
number zero. -/
def scanFinish (r : ScanState × List Char) (octalZero : Bool) : Option (Nat × List Char) :=
  let invalid := r.1.invalSep || decide (r.1.prev = .sep)
  if r.1.count = 0 then
    if octalZero then (if invalid then none else some (0, r.2)) else none
  else if invalid then none
  else some (r.1.acc, r.2)

/-- The scanner of `math/big` with the base argument 0: the base is 10, or 2, 8
or 16 after `0b`, `0o`, `0x` (either case), or 8 after a `0` that another
character follows.  The result is the value and the unread characters, `none`
for an error. -/
def natScan (s : List Char) : Option (Nat × List Char) :=
  match s with
  | [] => none
  | ch :: rest =>
    if ch = '0' then
      match rest with
      | [] => some (0, [])
      | ch2 :: rest2 =>
        let start : ScanState := { acc := 0, count := 0, prev := .digit, invalSep := false }
        if ch2 = 'b' ∨ ch2 = 'B' then scanFinish (scanLoop 2 rest2 start) false
        else if ch2 = 'o' ∨ ch2 = 'O' then scanFinish (scanLoop 8 rest2 start) false
        else if ch2 = 'x' ∨ ch2 = 'X' then scanFinish (scanLoop 16 rest2 start) false
        else scanFinish (scanLoop 8 rest start) true
    else
      scanFinish (scanLoop 10 s { acc := 0, count := 0, prev := .other, invalSep := false })
        false

/-- The call `new(big.Int).SetString(s, 0)`: an optional sign, then the
scanner, which must leave nothing unread; `none` when the call reports
failure. -/
def setString (s : List Char) : Option Int :=
  match s with
  | [] => none
  | ch :: rest =>
    let body := if ch = '-' ∨ ch = '+' then rest else s
    match natScan body with
    | none => none
    | some (v, unread) =>
      if unread = [] then some (if ch = '-' then -(v : Int) else (v : Int)) else none

/-- The variable `accounts.DefaultRootDerivationPath`, the root of a relative
path: `m/44'/60'/0'/0`. -/
def DefaultRootDerivationPath : DerivationPath :=
  [0x80000000 + 44, 0x80000000 + 60, 0x80000000 + 0, 0]

/-- The body of the loop of `accounts.ParseDerivationPath` for one component:
white space is dropped, a final apostrophe makes the component hardened
(`value = 0x80000000`), the rest is read by `SetString` and must lie in
`[0, MaxUint32 - value]`; the result is `value` plus the number read. -/
def parseComponent (component : List Char) : Except PathError Nat :=
  let component := trimSpace component
  let hardened := decide (component.getLast? = some (Char.ofNat 39))
  let value : Nat := if hardened then 0x80000000 else 0
  let component := if hardened then trimSpace component.dropLast else component
  match setString component with
  | none => .error (.invalidComponent component)
  | some bigval =>
    let max : Nat := 0xFFFFFFFF - value
    if bigval < 0 ∨ (max : Int) < bigval then
      if value = 0 then .error (.outOfRange bigval max)
      else .error (.outOfHardenedRange bigval max)
    else .ok (value + bigval.toNat)

/-- The loop of `accounts.ParseDerivationPath`: every component is appended to
`result`, the first error ends the function. -/
def parseComponents : List (List Char) → DerivationPath → Except PathError DerivationPath
  | [], result => .ok result
  | component :: rest, result =>
    match parseComponent component with
    | .error err => .error err
    | .ok value => parseComponents rest (result ++ [value])

/-- Modelled from the spec: the function `accounts.ParseDerivationPath` of
go-ethereum, which is not part of the repository's sources: the parser of
section 6 (`DerivationPathParser.parse`), its steps written as the `uint32`
components of an `accounts.DerivationPath`.  Where section 6 and the library
differ, the library is followed: the string is cut at `/`; a first component
`m` makes the path absolute, an empty one is ambiguous, any other makes the
path relative to `DefaultRootDerivationPath`; a non-hardened component may be
any number up to `2^32 - 1`, a hardened one up to `2^31 - 1`. -/
def ParseDerivationPath (path : List Char) : Except PathError DerivationPath :=
  match splitSlash path with
  | [] => .error .emptyPath
  | first :: rest =>
    if trimSpace first = [] then .error .ambiguousPath
    else if trimSpace first = ['m'] then
      if rest = [] then .error .emptyPath else parseComponents rest []
    else parseComponents (first :: rest) DefaultRootDerivationPath

/-! ## Instances used to evaluate the definitions -/

/-- A small library over numbers: a child is `2 * key + n + 1` in the standard
routine and `2 * key + n + 2` in the non-standard one, the component `7` is an
invalid child, even keys are the affected ones, every key has a private key. -/
def demoDeps : Deps Nat String Nat Nat Nat Nat where
  NewSeedWithErrorChecking := fun mnemonic password =>
    if mnemonic = "" then .error "invalid mnemonic" else .ok [mnemonic.length, password.length]
  NewMaster := fun seed => if seed = [] then .error "invalid seed" else .ok (seed.sum + 1)
  IsAffectedByIssue172 := fun key => key % 2 == 0
  Derive := fun key n => if n = 7 then .error "invalid child" else .ok (2 * key + n + 1)
  DeriveNonStandard := fun key n =>
    if n = 7 then .error "invalid child" else .ok (2 * key + n + 2)
  ECPrivKey := fun key => .ok key
  ToECDSA := fun key => key + 1000
  PublicKey := fun priv => 3 * priv
  PubkeyToAddress := fun pub => pub % 1000

/-- The library `demoDeps` with keys that carry no private key: `ECPrivKey`
returns an error at every key, as it does for a public extended key. -/
def publicDeps : Deps Nat String Nat Nat Nat Nat :=
  { demoDeps with ECPrivKey := fun _ => .error "not a private extended key" }

/-- Small primitives for the engine of the specification: a curve order of
`2^255`, a polynomial checksum in the place of the hash. -/
def demoPrims : Prims Nat where
  n := 2 ^ 255
  hmacSHA512 := fun key msg =>
    List.replicate 31 1 ++ [(key ++ msg).foldl (fun acc x => (acc * 31 + x) % 251) 7] ++
      List.replicate 32 2
  publicPoint := fun k => 3 * k
  serializePoint := fun pt => 2 :: ser256 pt
  fingerprintHash := fun b => b.reverse
  addressOf := fun pt => ser256 (pt % 2 ^ 160)
  fromMnemonic := fun mnemonic _ =>
    if mnemonic = "" then .error .InvalidMnemonicError else .ok [1, 2, 3]

/-! ## Lemmas on the walk -/

section Walk

variable {Key Err BtcKey Priv Pub Addr : Type}

theorem walk_append (L : Deps Key Err BtcKey Priv Pub Addr) (key : Key)
    (p q : DerivationPath) :
    walk L key (p ++ q) =
      match walk L key p with
      | .error err => .error err
      | .ok mid => walk L mid q := by
  induction p generalizing key with
  | nil => simp [walk]
  | cons n rest ih =>
    simp only [List.cons_append, walk]
    cases h : deriveChild L key n with
    | error err => simp
    | ok child => simpa using ih child

theorem walk_pair (L : Deps Key Err BtcKey Priv Pub Addr) (key : Key) (a b : Nat) :
    walk L key [a, b] =
      match deriveChild L key a with
      | .error err => .error err
      | .ok child => deriveChild L child b := by
  simp only [walk]
  cases deriveChild L key a with
  | error err => rfl
  | ok child =>
    simp only
    cases deriveChild L child b <;> rfl

theorem walk_take_ok (L : Deps Key Err BtcKey Priv Pub Addr) (key leaf : Key)
    (path : DerivationPath) (h : walk L key path = .ok leaf) (i : Nat) :
    ∃ mid, walk L key (path.take i) = .ok mid := by
  have happ := walk_append L key (path.take i) (path.drop i)
  rw [List.take_append_drop, h] at happ
  cases hmid : walk L key (path.take i) with
  | error err => rw [hmid] at happ; simp at happ
  | ok mid => exact ⟨mid, rfl⟩

theorem walkCalls_append (L : Deps Key Err BtcKey Priv Pub Addr) (key mid : Key)
    (p q : DerivationPath) (h : walk L key p = .ok mid) :
    walkCalls L key (p ++ q) = walkCalls L key p ++ walkCalls L mid q := by
  induction p generalizing key with
  | nil =>
    simp only [walk, Except.ok.injEq] at h
    simp [walkCalls, h]
  | cons n rest ih =>
    simp only [walk] at h
    simp only [List.cons_append, walkCalls]
    cases hc : deriveChild L key n with
    | error err => rw [hc] at h; simp at h
    | ok child =>
      rw [hc] at h
      simp only at h
      simp [ih child h]

theorem walkCalls_length_of_ok (L : Deps Key Err BtcKey Priv Pub Addr) (key mid : Key)
    (p : DerivationPath) (h : walk L key p = .ok mid) :
    (walkCalls L key p).length = p.length := by
  induction p generalizing key with
  | nil => simp [walkCalls]
  | cons n rest ih =>
    simp only [walk] at h
    simp only [walkCalls, List.length_cons]
    cases hc : deriveChild L key n with
    | error err => rw [hc] at h; simp at h
    | ok child =>
      rw [hc] at h
      simp only at h
      simp [ih child h]

theorem derive_ok_iff (L : Deps Key Err BtcKey Priv Pub Addr) (w : Wallet Key)
    (path : DerivationPath) (d : Derived Key Addr Priv Pub) :
    Wallet.Derive L w path = .ok d ↔
      ∃ leaf sk, walk L w.masterKey path = .ok leaf ∧ L.ECPrivKey leaf = .ok sk ∧
        d = { ExtendedKey := leaf
              Address := L.PubkeyToAddress (L.PublicKey (L.ToECDSA sk))
              PrivateKey := L.ToECDSA sk
              PublicKey := L.PublicKey (L.ToECDSA sk) } := by
  unfold Wallet.Derive materialize getPrivateKey
  cases hw : walk L w.masterKey path with
  | error err => simp
  | ok leaf =>
    cases hk : L.ECPrivKey leaf with
    | error err => simp [hk]
    | ok sk =>
      simp only [hk, Except.ok.injEq, exists_and_left, exists_eq_left', true_and]
      constructor
      · intro h; exact h.symm
      · intro h; exact h.symm

theorem walk_eq_walkStandard (L : Deps Key Err BtcKey Priv Pub Addr)
    (hstd : ∀ key n, deriveChild L key n = L.Derive key n) (key : Key)
    (path : DerivationPath) : walk L key path = walkStandard L key path := by
  induction path generalizing key with
  | nil => rfl
  | cons n rest ih =>
    simp only [walk, walkStandard, hstd]
    cases L.Derive key n with
    | error err => rfl
    | ok child => exact ih child

end Walk

/-! ## The wallet, over any library -/

section Claims

variable {Key Err BtcKey Priv Pub Addr : Type}

/-- C1, path composition (amended).  `Wallet.Derive` on `[a, b]` succeeds
exactly when the child `a` of the master key and the child `b` of that child
are both derived without error and the private key is extracted from that
grandchild; the `ExtendedKey` returned is that grandchild, and when both
derivations succeed `Derive` returns what lines 84-96 make of the grandchild.
For all paths `p` and `q` the walk of `p ++ q` is the walk of `q` from the key
the walk of `p` reaches, and `Derive` on `p ++ q` is `Derive` on `q` for the
wallet rooted at that key. -/
theorem derive_path_composition (L : Deps Key Err BtcKey Priv Pub Addr) (w : Wallet Key)
    (a b : Nat) (p q : DerivationPath) :
    ((∃ d, Wallet.Derive L w [a, b] = .ok d) ↔
        ∃ child grandchild sk, deriveChild L w.masterKey a = .ok child ∧
          deriveChild L child b = .ok grandchild ∧ L.ECPrivKey grandchild = .ok sk) ∧
      (∀ d, Wallet.Derive L w [a, b] = .ok d →
        ∃ child, deriveChild L w.masterKey a = .ok child ∧
          deriveChild L child b = .ok d.ExtendedKey) ∧
      (∀ child grandchild, deriveChild L w.masterKey a = .ok child →
        deriveChild L child b = .ok grandchild →
          Wallet.Derive L w [a, b] = materialize L grandchild) ∧
      (walk L w.masterKey (p ++ q) =
        match walk L w.masterKey p with
        | .error err => .error err
        | .ok mid => walk L mid q) ∧
      (Wallet.Derive L w (p ++ q) =
        match walk L w.masterKey p with
        | .error err => .error err
        | .ok mid => Wallet.Derive L { masterKey := mid } q) := by
  have hpair := walk_pair L w.masterKey a b
  have key : ∀ d, Wallet.Derive L w [a, b] = .ok d →
      ∃ child sk, deriveChild L w.masterKey a = .ok child ∧
        deriveChild L child b = .ok d.ExtendedKey ∧ L.ECPrivKey d.ExtendedKey = .ok sk := by
    intro d hd
    obtain ⟨leaf, sk, hw, hsk, hd⟩ := (derive_ok_iff L w [a, b] d).1 hd
    rw [hpair] at hw
    cases hc : deriveChild L w.masterKey a with
    | error err => rw [hc] at hw; simp at hw
    | ok child =>
      rw [hc] at hw
      simp only at hw
      subst hd
      exact ⟨child, sk, rfl, hw, hsk⟩
  refine ⟨⟨?_, ?_⟩, ?_, ?_, walk_append L w.masterKey p q, ?_⟩
  · rintro ⟨d, hd⟩
    obtain ⟨child, sk, h1, h2, h3⟩ := key d hd
    exact ⟨child, d.ExtendedKey, sk, h1, h2, h3⟩
  · rintro ⟨child, grandchild, sk, h1, h2, hsk⟩
    have hw : walk L w.masterKey [a, b] = .ok grandchild := by
      rw [hpair, h1]; exact h2
    exact ⟨_, (derive_ok_iff L w [a, b] _).2 ⟨grandchild, sk, hw, hsk, rfl⟩⟩
  · intro d hd
    obtain ⟨child, _, h1, h2, _⟩ := key d hd
    exact ⟨child, h1, h2⟩
  · intro child grandchild h1 h2
    have hw : walk L w.masterKey [a, b] = .ok grandchild := by
      rw [hpair, h1]; exact h2
    simp only [Wallet.Derive, hw]
  · unfold Wallet.Derive
    rw [walk_append]
    cases walk L w.masterKey p <;> rfl

/-- C1 as stated fails where the keys carry no private key: from the master
key 5 the child 13 for the component 1 and its child 30 for the component 2 are
both derived without error, and yet `Wallet.Derive` on `[1, 2]` returns the
error of the extraction and no `Derived` value. -/
theorem derive_path_composition_counterexample :
    deriveChild publicDeps 5 1 = .ok 13 ∧ deriveChild publicDeps 13 2 = .ok 30 ∧
      Wallet.Derive publicDeps { masterKey := 5 } [1, 2] =
        .error "not a private extended key" ∧
      ¬ ((∃ d, Wallet.Derive publicDeps { masterKey := 5 } [1, 2] = .ok d) ↔
        ∃ child grandchild, deriveChild publicDeps 5 1 = .ok child ∧
          deriveChild publicDeps child 2 = .ok grandchild) := by
  refine ⟨rfl, rfl, rfl, ?_⟩
  intro h
  obtain ⟨d, hd⟩ := h.2 ⟨13, 30, rfl, rfl⟩
  have herr : Wallet.Derive publicDeps { masterKey := 5 } [1, 2] =
      .error "not a private extended key" := rfl
  rw [herr] at hd
  cases hd

/-- C2, fail-fast walk.  When the steps of `p` succeed and reach `key` and the
derivation of the next component `n` at `key` returns the error `e`, then
`Wallet.Derive` on `p ++ n :: q` returns exactly `e` (and so no `Derived`
value), whatever `q` is; the library is called once for each component of `p`
and once for `n`, the last call being the failing one, and for no component of
`q`.  On any path, a `Derived` value is returned only when every step of the
path succeeded and the private key was extracted from the leaf. -/
theorem derive_fail_fast (L : Deps Key Err BtcKey Priv Pub Addr) (w : Wallet Key)
    (p q : DerivationPath) (n : Nat) (key : Key) (e : Err)
    (hp : walk L w.masterKey p = .ok key) (hn : deriveChild L key n = .error e) :
    Wallet.Derive L w (p ++ n :: q) = .error e ∧
      walkCalls L w.masterKey (p ++ n :: q) = walkCalls L w.masterKey p ++ [(key, n)] ∧
      (walkCalls L w.masterKey (p ++ n :: q)).length = p.length + 1 ∧
      (∀ path d, Wallet.Derive L w path = .ok d →
        (∀ i, ∃ mid, walk L w.masterKey (path.take i) = .ok mid) ∧
          walk L w.masterKey path = .ok d.ExtendedKey ∧
          ∃ sk, L.ECPrivKey d.ExtendedKey = .ok sk) := by
  have hcalls : walkCalls L w.masterKey (p ++ n :: q) =
      walkCalls L w.masterKey p ++ [(key, n)] := by
    rw [walkCalls_append L w.masterKey key p (n :: q) hp]
    simp [walkCalls, hn]
  refine ⟨?_, hcalls, ?_, ?_⟩
  · unfold Wallet.Derive
    rw [walk_append, hp]
    simp [walk, hn]
  · rw [hcalls, List.length_append, walkCalls_length_of_ok L w.masterKey key p hp]
    rfl
  · intro path d hd
    obtain ⟨leaf, sk, hw, hsk, hd⟩ := (derive_ok_iff L w path d).1 hd
    subst hd
    exact ⟨walk_take_ok L w.masterKey leaf path hw, hw, sk, hsk⟩

/-- C2 at a concrete wallet: master key 5, the path `[1, 7, 3]` whose second
component is an invalid child of the node 13. -/
theorem derive_fail_fast_witness :
    Wallet.Derive demoDeps { masterKey := 5 } ([1] ++ 7 :: [3]) = .error "invalid child" ∧
      walkCalls demoDeps 5 ([1] ++ 7 :: [3]) = walkCalls demoDeps 5 [1] ++ [(13, 7)] ∧
      (walkCalls demoDeps 5 ([1] ++ 7 :: [3])).length = [1].length + 1 ∧
      (∀ path d, Wallet.Derive demoDeps { masterKey := 5 } path = .ok d →
        (∀ i, ∃ mid, walk demoDeps 5 (path.take i) = .ok mid) ∧
          walk demoDeps 5 path = .ok d.ExtendedKey ∧
          ∃ sk, demoDeps.ECPrivKey d.ExtendedKey = .ok sk) :=
  derive_fail_fast demoDeps { masterKey := 5 } [1] [3] 7 13 "invalid child" rfl rfl

/-- C3, per-node mode selection.  Let the node `key` be reached by walking `p1`
from the master key of `w1` and also by walking `p2` from the master key of
`w2`.  The step made at `key` for the component `n` is `key.Derive(n)` when
`key.IsAffectedByIssue172()` holds and `key.DeriveNonStandard(n)` otherwise: the
choice is a function of `key` alone, the same after both walks, whatever the
wallets, the paths walked before and their lengths; and the same holds again at
the node this step produces, for the rest `q` of the path. -/
theorem derive_mode_per_node (L : Deps Key Err BtcKey Priv Pub Addr) (w1 w2 : Wallet Key)
    (p1 p2 q : DerivationPath) (key : Key) (n : Nat)
    (h1 : walk L w1.masterKey p1 = .ok key) (h2 : walk L w2.masterKey p2 = .ok key) :
    walk L w1.masterKey (p1 ++ [n]) =
        (if L.IsAffectedByIssue172 key then L.Derive key n else L.DeriveNonStandard key n) ∧
      walk L w2.masterKey (p2 ++ [n]) = walk L w1.masterKey (p1 ++ [n]) ∧
      walk L w1.masterKey (p1 ++ n :: q) =
        (match (if L.IsAffectedByIssue172 key then L.Derive key n
            else L.DeriveNonStandard key n) with
          | .error err => .error err
          | .ok child => walk L child q) ∧
      Wallet.Derive L w2 (p2 ++ n :: q) = Wallet.Derive L w1 (p1 ++ n :: q) := by
  have hone : ∀ k : Key, walk L k [n] = deriveChild L k n := by
    intro k
    simp only [walk]
    cases deriveChild L k n <;> rfl
  refine ⟨?_, ?_, ?_, ?_⟩
  · rw [walk_append, h1]; exact hone key
  · rw [walk_append, walk_append, h1, h2]
  · rw [walk_append, h1]; rfl
  · unfold Wallet.Derive
    rw [walk_append, walk_append, h1, h2]

/-- C3 at concrete wallets: the node 13 is reached from the master key 5 by
`[1]` and is itself the master key of a second wallet; it is not affected, so
the non-standard routine makes the next step. -/
theorem derive_mode_per_node_witness :
    walk demoDeps 5 ([1] ++ [4]) =
        (if demoDeps.IsAffectedByIssue172 13 then demoDeps.Derive 13 4
          else demoDeps.DeriveNonStandard 13 4) ∧
      walk demoDeps 13 ([] ++ [4]) = walk demoDeps 5 ([1] ++ [4]) ∧
      walk demoDeps 5 ([1] ++ 4 :: [0]) =
        (match (if demoDeps.IsAffectedByIssue172 13 then demoDeps.Derive 13 4
            else demoDeps.DeriveNonStandard 13 4) with
          | .error err => .error err
          | .ok child => walk demoDeps child [0]) ∧
      Wallet.Derive demoDeps { masterKey := 13 } ([] ++ 4 :: [0]) =
        Wallet.Derive demoDeps { masterKey := 5 } ([1] ++ 4 :: [0]) :=
  derive_mode_per_node demoDeps { masterKey := 5 } { masterKey := 13 } [1] [] [0] 13 4 rfl rfl

/-- C4, materialization consistency.  When `Wallet.Derive` returns a `Derived`
value, its `ExtendedKey` is the leaf the walk reached, its `PrivateKey` is
`getPrivateKey` of that leaf (the `ToECDSA` of the key `ECPrivKey` extracts),
its `PublicKey` is the public key of that `PrivateKey` and its `Address` is
`PubkeyToAddress` of that `PublicKey`; when the walk reaches a leaf whose
extraction fails, `Derive` returns the extraction error. -/
theorem derive_materialization (L : Deps Key Err BtcKey Priv Pub Addr) (w : Wallet Key)
    (path : DerivationPath) :
    (∀ d, Wallet.Derive L w path = .ok d →
        walk L w.masterKey path = .ok d.ExtendedKey ∧
          getPrivateKey L d.ExtendedKey = .ok d.PrivateKey ∧
          (∃ sk, L.ECPrivKey d.ExtendedKey = .ok sk ∧ d.PrivateKey = L.ToECDSA sk) ∧
          d.PublicKey = L.PublicKey d.PrivateKey ∧
          d.Address = L.PubkeyToAddress d.PublicKey) ∧
      (∀ leaf e, walk L w.masterKey path = .ok leaf → L.ECPrivKey leaf = .error e →
        Wallet.Derive L w path = .error e) := by
  constructor
  · intro d hd
    obtain ⟨leaf, sk, hw, hsk, hd⟩ := (derive_ok_iff L w path d).1 hd
    subst hd
    refine ⟨hw, ?_, ⟨sk, hsk, rfl⟩, rfl, rfl⟩
    simp [getPrivateKey, hsk]
  · intro leaf e hw he
    simp [Wallet.Derive, materialize, getPrivateKey, hw, he]

/-- C5, mnemonic and raw-seed construction agree.  When the seed computation
for the mnemonic and the password succeeds with the seed `s`, `New` on them and
`NewFromSeed` on `s` return the same result: the same error, or wallets with the
same master key, on which `Derive` gives the same result for every path. -/
theorem new_agrees_with_newFromSeed (L : Deps Key Err BtcKey Priv Pub Addr)
    (mnemonic password : String) (s : Bytes)
    (hs : L.NewSeedWithErrorChecking mnemonic password = .ok s) :
    New L mnemonic password = NewFromSeed L s ∧
      (∀ e, New L mnemonic password = .error e ↔ NewFromSeed L s = .error e) ∧
      (∀ w1 w2, New L mnemonic password = .ok w1 → NewFromSeed L s = .ok w2 →
        w1.masterKey = w2.masterKey ∧
          ∀ path, Wallet.Derive L w1 path = Wallet.Derive L w2 path) := by
  have heq : New L mnemonic password = NewFromSeed L s := by
    simp [New, NewFromSeed, hs]
  refine ⟨heq, ?_, ?_⟩
  · intro e; rw [heq]
  · intro w1 w2 h1 h2
    rw [heq, h2] at h1
    cases h1
    exact ⟨rfl, fun _ => rfl⟩

/-- C5 at a concrete mnemonic: the seed of `"abc"` with the password `"pw"` is
`[3, 2]`. -/
theorem new_agrees_with_newFromSeed_witness :
    New demoDeps "abc" "pw" = NewFromSeed demoDeps [3, 2] ∧
      (∀ e, New demoDeps "abc" "pw" = .error e ↔ NewFromSeed demoDeps [3, 2] = .error e) ∧
      (∀ w1 w2, New demoDeps "abc" "pw" = .ok w1 → NewFromSeed demoDeps [3, 2] = .ok w2 →
        w1.masterKey = w2.masterKey ∧
          ∀ path, Wallet.Derive demoDeps w1 path = Wallet.Derive demoDeps w2 path) :=
  new_agrees_with_newFromSeed demoDeps "abc" "pw" [3, 2] rfl

/-- C6, constructor error propagation.  `New` returns the error `e` exactly
when the mnemonic-to-seed step returns `e`, or that step returns a seed and the
master-key generation on it returns `e`; an error of the seed step is returned
as it is, no seed existing on which a master key could be generated; `New`
returns a wallet exactly when both steps succeed, the wallet holding the master
key generated.  `NewFromSeed` returns the error `e` exactly when the master-key
generation returns `e`, and a wallet exactly when it succeeds. -/
theorem constructor_error_propagation (L : Deps Key Err BtcKey Priv Pub Addr)
    (mnemonic password : String) (seed : Bytes) :
    (∀ e, New L mnemonic password = .error e ↔
        (L.NewSeedWithErrorChecking mnemonic password = .error e ∨
          ∃ s, L.NewSeedWithErrorChecking mnemonic password = .ok s ∧
            L.NewMaster s = .error e)) ∧
      (∀ e, L.NewSeedWithErrorChecking mnemonic password = .error e →
        New L mnemonic password = .error e) ∧
      (∀ w, New L mnemonic password = .ok w ↔
        ∃ s, L.NewSeedWithErrorChecking mnemonic password = .ok s ∧
          L.NewMaster s = .ok w.masterKey) ∧
      (∀ e, NewFromSeed L seed = .error e ↔ L.NewMaster seed = .error e) ∧
      (∀ w, NewFromSeed L seed = .ok w ↔ L.NewMaster seed = .ok w.masterKey) := by
  have hw : ∀ (w : Wallet Key) (k : Key), ({ masterKey := k } : Wallet Key) = w ↔
      k = w.masterKey := by
    intro w k
    cases w
    simp
  refine ⟨?_, ?_, ?_, ?_, ?_⟩
  · intro e
    unfold New
    cases L.NewSeedWithErrorChecking mnemonic password with
    | error err => simp
    | ok s => cases hm : L.NewMaster s <;> simp [hm]
  · intro e he
    simp [New, he]
  · intro w
    unfold New
    cases L.NewSeedWithErrorChecking mnemonic password with
    | error err => simp
    | ok s => cases hm : L.NewMaster s <;> simp [hm, hw]
  · intro e
    unfold NewFromSeed
    cases hm : L.NewMaster seed <;> simp [hm]
  · intro w
    unfold NewFromSeed
    cases hm : L.NewMaster seed <;> simp [hm, hw]

end Claims

/-! ## The engine of the specification: both modes on unaffected nodes -/

theorem leftPad_of_length_le (len : Nat) (b : Bytes) (h : len ≤ b.length) :
    leftPad len b = b := by
  simp [leftPad, Nat.sub_eq_zero_of_le h]

theorem leftPad_length (len : Nat) (b : Bytes) (h : b.length ≤ len) :
    (leftPad len b).length = len := by
  simp only [leftPad, List.length_append, List.length_replicate]
  omega

theorem parse256_append_singleton (b : Bytes) (x : Nat) :
    parse256 (b ++ [x]) = parse256 b * 256 + x := by
  simp [parse256, List.foldl_append]

theorem parse256_naturalBytesAux (fuel x : Nat) (h : x ≤ fuel) :
    parse256 (naturalBytesAux fuel x) = x := by
  induction fuel generalizing x with
  | zero =>
    have hx : x = 0 := by omega
    subst hx
    rfl
  | succ f ih =>
    unfold naturalBytesAux
    by_cases hx : x = 0
    · subst hx; rfl
    · rw [if_neg hx, parse256_append_singleton, ih (x / 256) (by omega)]
      omega

/-- The natural encoding is an encoding: it is read back as the number. -/
theorem parse256_naturalBytes (x : Nat) : parse256 (naturalBytes x) = x :=
  parse256_naturalBytesAux x x (le_refl x)

theorem parse256_replicate_zero (k : Nat) (b : Bytes) :
    parse256 (List.replicate k 0 ++ b) = parse256 b := by
  induction k with
  | zero => rfl
  | succ k ih =>
    simp only [parse256, List.replicate_succ, List.cons_append, List.foldl_cons] at ih ⊢
    simpa using ih

/-- The padded serialization encodes the same number. -/
theorem parse256_ser256 (x : Nat) : parse256 (ser256 x) = x := by
  rw [ser256, leftPad, parse256_replicate_zero, parse256_naturalBytes]

theorem naturalBytesAux_length_le (fuel x k : Nat) (h : x < 256 ^ k) :
    (naturalBytesAux fuel x).length ≤ k := by
  induction fuel generalizing x k with
  | zero => simp [naturalBytesAux]
  | succ f ih =>
    unfold naturalBytesAux
    by_cases hx : x = 0
    · simp [hx]
    · rw [if_neg hx]
      cases k with
      | zero => simp at h; omega
      | succ k =>
        have hdiv : x / 256 < 256 ^ k := by
          rw [Nat.div_lt_iff_lt_mul (by norm_num)]
          rw [pow_succ] at h
          exact h
        have := ih (x / 256) k hdiv
        simp only [List.length_append, List.length_singleton]
        omega

/-- The padded serialization of a scalar below `2^256` has 32 bytes. -/
theorem ser256_length (x : Nat) (h : x < 2 ^ 256) : (ser256 x).length = 32 := by
  apply leftPad_length
  apply naturalBytesAux_length_le
  calc x < 2 ^ 256 := h
    _ = 256 ^ 32 := by norm_num

theorem hmacMessage_legacy_eq_standard {Point : Type} (P : Prims Point) (scalar index : Nat)
    (h : ¬ (naturalBytes scalar).length < 32) :
    hmacMessage P .LegacyNonStandard scalar index = hmacMessage P .Standard scalar index := by
  have hle : 32 ≤ (naturalBytes scalar).length := by omega
  unfold hmacMessage
  split
  · simp only [ser256, leftPad_of_length_le 32 _ hle, Nat.sub_eq_zero_of_le hle,
      List.replicate_zero, List.nil_append]
  · rfl

theorem derive_child_legacy_eq_standard {Point : Type} (P : Prims Point) (key : ExtendedKey)
    (index : Nat) (h : isAffected key = false) :
    derive_child P key index .LegacyNonStandard = derive_child P key index .Standard := by
  unfold derive_child
  cases hk : key.privateScalar with
  | none => rfl
  | some k =>
    have hlen : ¬ (naturalBytes k).length < 32 := by
      simpa [isAffected, hk] using h
    simp only [hmacMessage_legacy_eq_standard P k index hlen]

theorem specDeps_deriveChild {Point : Type} (P : Prims Point) (key : ExtendedKey) (n : Nat) :
    deriveChild (specDeps P) key n = derive_child P key n .Standard := by
  unfold deriveChild
  cases h : (specDeps P).IsAffectedByIssue172 key with
  | true => rfl
  | false => exact derive_child_legacy_eq_standard P key n h

/-- The two modes are different routines: at the affected node of scalar 5 the
hardened child `0x80000000` differs between them. -/
theorem modes_differ_on_affected_node :
    isAffected ⟨0, 0, [9], [0, 0, 0, 0], some 5⟩ = true ∧
      derive_child demoPrims ⟨0, 0, [9], [0, 0, 0, 0], some 5⟩ 0x80000000 .Standard ≠
        derive_child demoPrims ⟨0, 0, [9], [0, 0, 0, 0], some 5⟩ 0x80000000 .LegacyNonStandard := by
  decide

/-- C10, `Derive` always yields the standard derivation.  With `Derive` and
`DeriveNonStandard` the standard and the legacy mode of the specification's
`derive_child`, the step `Wallet.Derive` makes at any node for any component is
the standard one (at an unaffected node the legacy HMAC message is the standard
one); so for every wallet and path the loop of `Wallet.Derive` gives the error
or leaf key of the walk that calls the standard `Derive` at every step, and
`Wallet.Derive` returns what that walk followed by the same materialization
returns: the same error, or the same `ExtendedKey`, private key, public key and
address. -/
theorem derive_is_standard {Point : Type} (P : Prims Point) (w : Wallet ExtendedKey)
    (path : DerivationPath) :
    (∀ key n, deriveChild (specDeps P) key n = (specDeps P).Derive key n) ∧
      walk (specDeps P) w.masterKey path = walkStandard (specDeps P) w.masterKey path ∧
      Wallet.Derive (specDeps P) w path = Wallet.DeriveStandard (specDeps P) w path := by
  have hstep : ∀ key n, deriveChild (specDeps P) key n = (specDeps P).Derive key n :=
    fun key n => specDeps_deriveChild P key n
  have hwalk := walk_eq_walkStandard (specDeps P) hstep w.masterKey path
  refine ⟨hstep, hwalk, ?_⟩
  unfold Wallet.Derive Wallet.DeriveStandard
  rw [hwalk]

/-! ## Derivation paths: the decimal index is read back -/

theorem digitChar_props (d : Nat) (h : d < 10) :
    digitChar d ≠ '/' ∧ digitChar d ≠ Char.ofNat 39 ∧ digitChar d ≠ '_' ∧
      digitChar d ≠ '-' ∧ digitChar d ≠ '+' ∧ isSpace (digitChar d) = false ∧
      digitValue (digitChar d) = d := by
  interval_cases d <;> decide

theorem digitChar_ne_zero (d : Nat) (h1 : 1 ≤ d) (h : d < 10) : digitChar d ≠ '0' := by
  interval_cases d <;> decide

theorem decimalAux_succ (fuel n : Nat) :
    decimalAux (fuel + 1) n =
      (if n < 10 then [] else decimalAux fuel (n / 10)) ++ [digitChar (n % 10)] := by
  by_cases h : n < 10
  · simp [decimalAux, h, Nat.mod_eq_of_lt h]
  · simp [decimalAux, h]

theorem decimalAux_digits (fuel n : Nat) :
    ∀ c ∈ decimalAux fuel n, ∃ d, d < 10 ∧ c = digitChar d := by
  induction fuel generalizing n with
  | zero => simp [decimalAux]
  | succ f ih =>
    intro c hc
    rw [decimalAux_succ, List.mem_append] at hc
    rcases hc with hc | hc
    · by_cases h : n < 10
      · simp [h] at hc
      · rw [if_neg h] at hc
        exact ih (n / 10) c hc
    · exact ⟨n % 10, Nat.mod_lt n (by norm_num), by simpa using hc⟩

theorem decimalAux_head (fuel n : Nat) (h : n < fuel) :
    ∃ d cs, d < 10 ∧ (0 < n → 1 ≤ d) ∧ decimalAux fuel n = digitChar d :: cs := by
  induction fuel generalizing n with
  | zero => omega
  | succ f ih =>
    by_cases hn : n < 10
    · exact ⟨n, [], hn, fun h0 => h0, by simp [decimalAux, hn]⟩
    · obtain ⟨d, cs, hd, hpos, hcs⟩ := ih (n / 10) (by omega)
      refine ⟨d, cs ++ [digitChar (n % 10)], hd, fun _ => hpos (by omega), ?_⟩
      simp [decimalAux, hn, hcs]

theorem decimalAux_value (fuel n : Nat) (h : n < fuel) :
    (decimalAux fuel n).foldl (fun a c => a * 10 + digitValue c) 0 = n := by
  induction fuel generalizing n with
  | zero => omega
  | succ f ih =>
    rw [decimalAux_succ, List.foldl_append]
    simp only [List.foldl_cons, List.foldl_nil,
      (digitChar_props (n % 10) (Nat.mod_lt n (by norm_num))).2.2.2.2.2.2]
    by_cases hn : n < 10
    · simp [hn, Nat.mod_eq_of_lt hn]
    · rw [if_neg hn, ih (n / 10) (by omega)]
      omega

theorem scanLoop_digits (ds : List Char) (st : ScanState)
    (h : ∀ c ∈ ds, ∃ d, d < 10 ∧ c = digitChar d) :
    scanLoop 10 ds st =
      ({ acc := ds.foldl (fun a c => a * 10 + digitValue c) st.acc
         count := st.count + ds.length
         prev := if ds = [] then st.prev else .digit
         invalSep := st.invalSep }, []) := by
  induction ds generalizing st with
  | nil => simp [scanLoop]
  | cons c cs ih =>
    obtain ⟨d, hd, rfl⟩ := h c (List.mem_cons_self c cs)
    have hp := digitChar_props d hd
    have hlt : ¬ 10 ≤ digitValue (digitChar d) := by rw [hp.2.2.2.2.2.2]; omega
    rw [scanLoop, if_neg hp.2.2.1, if_neg hlt,
      ih _ (fun x hx => h x (List.mem_cons_of_mem _ hx))]
    simp only [List.foldl_cons, List.length_cons, Prod.mk.injEq, and_true,
      ScanState.mk.injEq, true_and]
    refine ⟨by omega, ?_⟩
    split <;> simp

theorem formatNat_ne_nil (n : Nat) : formatNat n ≠ [] := by
  simp [formatNat, decimalAux_succ]

/-- The scanner reads the decimal digits of a number back as the number. -/
theorem natScan_formatNat (n : Nat) : natScan (formatNat n) = some (n, []) := by
  by_cases h0 : n = 0
  · subst h0; rfl
  · obtain ⟨d, cs, hd, hpos, hcs⟩ := decimalAux_head (n + 1) n (by omega)
    have hne : digitChar d ≠ '0' := digitChar_ne_zero d (hpos (by omega)) hd
    have hdig := decimalAux_digits (n + 1) n
    have hval := decimalAux_value (n + 1) n (by omega)
    unfold formatNat at *
    rw [hcs] at hdig hval ⊢
    simp only [natScan, if_neg hne]
    rw [scanLoop_digits _ _ hdig, hval]
    simp [scanFinish]

theorem formatNat_head (n : Nat) :
    ∃ d cs, d < 10 ∧ formatNat n = digitChar d :: cs := by
  obtain ⟨d, cs, hd, _, hcs⟩ := decimalAux_head (n + 1) n (by omega)
  exact ⟨d, cs, hd, hcs⟩

/-- The call `SetString(s, 0)` reads what the verb `%d` writes. -/
theorem setString_formatInt (i : Int) : setString (formatInt i) = some i := by
  cases i with
  | ofNat n =>
    obtain ⟨d, cs, hd, hcs⟩ := formatNat_head n
    have hp := digitChar_props d hd
    have hscan := natScan_formatNat n
    simp only [formatInt]
    rw [hcs] at hscan ⊢
    have hsign : ¬ (digitChar d = '-' ∨ digitChar d = '+') := by
      rintro (h | h)
      · exact hp.2.2.2.1 h
      · exact hp.2.2.2.2.1 h
    simp only [setString, if_neg hsign, hscan, if_true, if_neg hp.2.2.2.1]
    rfl
  | negSucc n =>
    simp only [formatInt, setString, true_or, if_true, natScan_formatNat]
    rfl

theorem formatNat_getLast (n : Nat) :
    (formatNat n).getLast? = some (digitChar (n % 10)) := by
  simp [formatNat, decimalAux_succ]

theorem formatInt_getLast (i : Int) :
    ∃ d, d < 10 ∧ (formatInt i).getLast? = some (digitChar d) := by
  cases i with
  | ofNat n => exact ⟨n % 10, Nat.mod_lt n (by norm_num), formatNat_getLast n⟩
  | negSucc n =>
    refine ⟨(n + 1) % 10, Nat.mod_lt _ (by norm_num), ?_⟩
    simp only [formatInt]
    rw [formatNat, decimalAux_succ, ← List.cons_append, List.getLast?_append]
    rfl

theorem formatInt_chars (i : Int) :
    ∀ c ∈ formatInt i, c ≠ '/' ∧ isSpace c = false := by
  have hnat : ∀ n c, c ∈ formatNat n → c ≠ '/' ∧ isSpace c = false := by
    intro n c hc
    obtain ⟨d, hd, rfl⟩ := decimalAux_digits (n + 1) n c hc
    exact ⟨(digitChar_props d hd).1, (digitChar_props d hd).2.2.2.2.2.1⟩
  cases i with
  | ofNat n => exact hnat n
  | negSucc n =>
    intro c hc
    simp only [formatInt, List.mem_cons] at hc
    rcases hc with rfl | hc
    · decide
    · exact hnat (n + 1) c hc

theorem dropWhile_of_none (p : Char → Bool) (s : List Char) (h : ∀ c ∈ s, p c = false) :
    s.dropWhile p = s := by
  cases s with
  | nil => rfl
  | cons c cs => simp [List.dropWhile, h c (List.mem_cons_self c cs)]

theorem trimSpace_of_no_space (s : List Char) (h : ∀ c ∈ s, isSpace c = false) :
    trimSpace s = s := by
  unfold trimSpace
  rw [dropWhile_of_none isSpace s h,
    dropWhile_of_none isSpace s.reverse (fun c hc => h c (List.mem_reverse.1 hc)),
    List.reverse_reverse]

theorem splitSlash_of_no_slash (s : List Char) (h : ∀ c ∈ s, c ≠ '/') :
    splitSlash s = [s] := by
  induction s with
  | nil => rfl
  | cons c cs ih =>
    have hc : c ≠ '/' := h c (List.mem_cons_self c cs)
    have hcs := ih (fun x hx => h x (List.mem_cons_of_mem c hx))
    simp [splitSlash, hc, hcs]

/-- The component the verb `%d` writes is read as the index and accepted when
it lies in `[0, 2^32 - 1]`. -/
theorem parseComponent_formatInt (i : Int) :
    parseComponent (formatInt i) =
      if i < 0 ∨ 4294967295 < i then .error (.outOfRange i 4294967295)
      else .ok i.toNat := by
  have htrim := trimSpace_of_no_space (formatInt i) (fun c hc => (formatInt_chars i c hc).2)
  obtain ⟨d, hd, hlast⟩ := formatInt_getLast i
  have hnot : ¬ (formatInt i).getLast? = some (Char.ofNat 39) := by
    rw [hlast]
    intro h
    exact (digitChar_props d hd).2.1 (Option.some.inj h)
  simp only [parseComponent, htrim, hnot, decide_False, Bool.false_eq_true, if_false,
    setString_formatInt]
  by_cases h : i < 0 ∨ 4294967295 < i
  · rw [if_pos h]
    simp only [Nat.sub_zero, Nat.cast_ofNat, if_true]
    rw [if_pos h]
  · rw [if_neg h]
    simp only [Nat.sub_zero, Nat.cast_ofNat, Nat.zero_add]
    rw [if_neg h]

theorem sprintf_default (i : Int) :
    Sprintf DefaultDerivationPath i = "m/44'/60'/0'/0/".toList ++ formatInt i := by
  simp [Sprintf, DefaultDerivationPath, sprintfAux]

/-- The string `CreateDerivationPath` builds is cut into the root, the four
fixed components and the index, and parsed up to the index. -/
theorem parse_default (i : Int) :
    ParseDerivationPath (Sprintf DefaultDerivationPath i) =
      match parseComponent (formatInt i) with
      | .error err => .error err
      | .ok value => .ok [0x80000000 + 44, 0x80000000 + 60, 0x80000000 + 0, 0, value] := by
  have hsplit := splitSlash_of_no_slash (formatInt i) (fun c hc => (formatInt_chars i c hc).1)
  have hm : trimSpace ['m'] = ['m'] := by decide
  have h44 : parseComponent ['4', '4', Char.ofNat 39] = .ok (0x80000000 + 44) := by decide
  have h60 : parseComponent ['6', '0', Char.ofNat 39] = .ok (0x80000000 + 60) := by decide
  have h0h : parseComponent ['0', Char.ofNat 39] = .ok (0x80000000 + 0) := by decide
  have h0 : parseComponent ['0'] = .ok 0 := by decide
  have hs : splitSlash (Sprintf DefaultDerivationPath i) =
      [['m'], ['4', '4', Char.ofNat 39], ['6', '0', Char.ofNat 39], ['0', Char.ofNat 39],
        ['0'], formatInt i] := by
    rw [sprintf_default]
    simp [splitSlash, hsplit]
  unfold ParseDerivationPath
  rw [hs]
  simp only [hm, parseComponents, h44, h60, h0h, h0]
  cases parseComponent (formatInt i) with
  | error err => rfl
  | ok value => rfl

/-- The result of `CreateDerivationPath` on the initial default path, for every
index. -/
theorem createDerivationPath_cases (i : Int) :
    CreateDerivationPath ParseDerivationPath DefaultDerivationPath i =
      if i < 0 ∨ 4294967295 < i then .error (.outOfRange i 4294967295)
      else .ok [0x80000000 + 44, 0x80000000 + 60, 0x80000000 + 0, 0, i.toNat] := by
  unfold CreateDerivationPath
  simp only [parse_default, parseComponent_formatInt]
  by_cases h : i < 0 ∨ 4294967295 < i
  · rw [if_pos h, if_pos h]
  · rw [if_neg h, if_neg h]

/-- C7, default path shape.  With `DefaultDerivationPath` at its initial value
and the parser `ParseDerivationPath`, for every index `i` with `0 <= i < 2^31`
`CreateDerivationPath(i)` returns the path
`[0x80000000+44, 0x80000000+60, 0x80000000+0, 0, i]`: five components, the
first three with the high bit set, the last two below `2^31`, the last equal to
`i`. -/
theorem createDerivationPath_default_shape (i : Int) (h0 : 0 ≤ i) (h1 : i < 2 ^ 31) :
    ∃ path, CreateDerivationPath ParseDerivationPath DefaultDerivationPath i = .ok path ∧
      path = [0x80000000 + 44, 0x80000000 + 60, 0x80000000 + 0, 0, i.toNat] ∧
      path.length = 5 ∧
      (∀ c ∈ path.take 3, 2 ^ 31 ≤ c ∧ c < 2 ^ 32) ∧
      (∀ c ∈ path.drop 3, c < 2 ^ 31) ∧
      path.getLast? = some i.toNat ∧ (i.toNat : Int) = i := by
  have hi : i.toNat < 2 ^ 31 := by omega
  refine ⟨_, ?_, rfl, rfl, ?_, ?_, rfl, Int.toNat_of_nonneg h0⟩
  · rw [createDerivationPath_cases, if_neg (by omega)]
  · intro c hc
    simp only [List.take, List.mem_cons, List.mem_singleton, List.not_mem_nil, or_false] at hc
    rcases hc with rfl | rfl | rfl <;> norm_num
  · intro c hc
    simp only [List.drop, List.mem_cons, List.mem_singleton, List.not_mem_nil, or_false] at hc
    rcases hc with rfl | rfl
    · norm_num
    · exact hi

/-- C7 at the index 5. -/
theorem createDerivationPath_default_shape_witness :
    ∃ path, CreateDerivationPath ParseDerivationPath DefaultDerivationPath 5 = .ok path ∧
      path = [0x80000000 + 44, 0x80000000 + 60, 0x80000000 + 0, 0, (5 : Int).toNat] ∧
      path.length = 5 ∧
      (∀ c ∈ path.take 3, 2 ^ 31 ≤ c ∧ c < 2 ^ 32) ∧
      (∀ c ∈ path.drop 3, c < 2 ^ 31) ∧
      path.getLast? = some (5 : Int).toNat ∧ (((5 : Int).toNat : Nat) : Int) = 5 :=
  createDerivationPath_default_shape 5 (by decide) (by decide)

/-- C8 as stated fails on the code.  At the index `2^31`, which the function
passes to the parser unchecked, `CreateDerivationPath` returns no error but the
five-component path whose last component is `2^31`, the hardened bit alone;
and with `DefaultDerivationPath` set to `m/44'/60'/0'/0/%d'` the index 5 gives
a path whose last component `0x80000005` has the hardened bit set. -/
theorem createDerivationPath_out_of_range_counterexample :
    (2 : Int) ^ 31 ≤ 2147483648 ∧
      CreateDerivationPath ParseDerivationPath DefaultDerivationPath 2147483648 =
        .ok [0x80000000 + 44, 0x80000000 + 60, 0x80000000 + 0, 0, 0x80000000] ∧
      (¬ ∃ e, CreateDerivationPath ParseDerivationPath DefaultDerivationPath 2147483648 =
        .error e) ∧
      CreateDerivationPath ParseDerivationPath "m/44'/60'/0'/0/%d'".toList 5 =
        .ok [0x80000000 + 44, 0x80000000 + 60, 0x80000000 + 0, 0, 0x80000000 + 5] := by
  have h : CreateDerivationPath ParseDerivationPath DefaultDerivationPath 2147483648 =
      .ok [0x80000000 + 44, 0x80000000 + 60, 0x80000000 + 0, 0, 0x80000000] := by decide
  refine ⟨by decide, h, ?_, by decide⟩
  rintro ⟨e, he⟩
  rw [h] at he
  cases he

/-- C8, out-of-range index rejection (amended).  With `DefaultDerivationPath`
at its initial value, for every index `i` that is negative or at least `2^32`,
`CreateDerivationPath(i)` returns an error and no path, the parser's range
error for the component `i` and the range `[0, 4294967295]`.  For every index
`j` with `2^31 <= j < 2^32` it returns the five-component path whose last
component is `j`, with the high bit set.  Whenever it returns a path, this is
the whole five-component path `m/44'/60'/0'/0/j` and `j` lies in `[0, 2^32)`:
no partial sequence is returned. -/
theorem createDerivationPath_out_of_range (i : Int) (h : i < 0 ∨ 2 ^ 32 ≤ i) :
    (∃ e, CreateDerivationPath ParseDerivationPath DefaultDerivationPath i = .error e) ∧
      (∀ path, CreateDerivationPath ParseDerivationPath DefaultDerivationPath i ≠ .ok path) ∧
      CreateDerivationPath ParseDerivationPath DefaultDerivationPath i =
        .error (.outOfRange i 4294967295) ∧
      (∀ j : Int, 2 ^ 31 ≤ j → j < 2 ^ 32 →
        CreateDerivationPath ParseDerivationPath DefaultDerivationPath j =
            .ok [0x80000000 + 44, 0x80000000 + 60, 0x80000000 + 0, 0, j.toNat] ∧
          2 ^ 31 ≤ j.toNat ∧ (j.toNat : Int) = j) ∧
      (∀ (j : Int) (path : DerivationPath),
        CreateDerivationPath ParseDerivationPath DefaultDerivationPath j = .ok path →
          0 ≤ j ∧ j < 2 ^ 32 ∧ path.length = 5 ∧
            path = [0x80000000 + 44, 0x80000000 + 60, 0x80000000 + 0, 0, j.toNat] ∧
            (j.toNat : Int) = j) := by
  have herr : CreateDerivationPath ParseDerivationPath DefaultDerivationPath i =
      .error (.outOfRange i 4294967295) := by
    rw [createDerivationPath_cases, if_pos (by omega)]
  refine ⟨⟨_, herr⟩, ?_, herr, ?_, ?_⟩
  · intro path hp
    rw [herr] at hp
    cases hp
  · intro j hj1 hj2
    refine ⟨?_, by omega, Int.toNat_of_nonneg (by omega)⟩
    rw [createDerivationPath_cases, if_neg (by omega)]
  · intro j path hp
    rw [createDerivationPath_cases] at hp
    by_cases hj : j < 0 ∨ 4294967295 < j
    · rw [if_pos hj] at hp; cases hp
    · rw [if_neg hj] at hp
      cases hp
      exact ⟨by omega, by omega, rfl, rfl, Int.toNat_of_nonneg (by omega)⟩

/-- C8 (amended) at the index `2^32`. -/
theorem createDerivationPath_out_of_range_witness :
    (∃ e, CreateDerivationPath ParseDerivationPath DefaultDerivationPath 4294967296 =
        .error e) ∧
      (∀ path,
        CreateDerivationPath ParseDerivationPath DefaultDerivationPath 4294967296 ≠ .ok path) ∧
      CreateDerivationPath ParseDerivationPath DefaultDerivationPath 4294967296 =
        .error (.outOfRange 4294967296 4294967295) ∧
      (∀ j : Int, 2 ^ 31 ≤ j → j < 2 ^ 32 →
        CreateDerivationPath ParseDerivationPath DefaultDerivationPath j =
            .ok [0x80000000 + 44, 0x80000000 + 60, 0x80000000 + 0, 0, j.toNat] ∧
          2 ^ 31 ≤ j.toNat ∧ (j.toNat : Int) = j) ∧
      (∀ (j : Int) (path : DerivationPath),
        CreateDerivationPath ParseDerivationPath DefaultDerivationPath j = .ok path →
          0 ≤ j ∧ j < 2 ^ 32 ∧ path.length = 5 ∧
            path = [0x80000000 + 44, 0x80000000 + 60, 0x80000000 + 0, 0, j.toNat] ∧
            (j.toNat : Int) = j) :=
  createDerivationPath_out_of_range 4294967296 (Or.inr (by decide))

end HDWallet
